import Mathlib

/-!
Verification development for the `uzudt` annotation pipeline.

Shallow embedding of:
  * `uzudt/annotator.py`  — `tokens_to_conllu`, the token-dict → CoNLL-U record converter;
  * `scripts/annotate_batch.py` — `get_last_processed_index` (checkpoint resolver) and
    `main` (the per-sentence annotate/convert/validate/append-or-halt orchestrator loop).

Python string primitives (`str.strip`, `str.split`, `str.startswith`, `int(str)`,
`str.lower`, `str.join`) are modelled over `List Char` with structural (or explicitly
fuelled) recursion so that every definition evaluates inside the kernel.

The external effects (LLM call, UD `validate.py` subprocess, file writes) are modelled
at the boundary the orchestrator sees them: `annotate_one_sentence` becomes an oracle
`Nat → AnnotOutcome` giving, per 1-based sentence index, either a raised exception or
the `(ok, conllu_str, tokens, validator_log)` tuple (with `tokens` carried in its
`json.dumps` serialized form, since the orchestrator only ever serializes it);
file writes and corpus appends become fields of an explicit `RunState`.
-/

/-! ## Python string primitives over `List Char` -/

/-- Python `str.strip()` (no argument): drop leading and trailing whitespace. -/
def trimL (cs : List Char) : List Char :=
  ((cs.dropWhile Char.isWhitespace).reverse.dropWhile Char.isWhitespace).reverse

/-- Python `str.startswith(pat)`: `pat` is a prefix of `cs`. -/
def isPreL : List Char → List Char → Bool
  | [], _ => true
  | _ :: _, [] => false
  | p :: ps, c :: cs => p == c && isPreL ps cs

/-- Python `str.split(sep)` for a nonempty `sep`, scanning left to right over
non-overlapping occurrences.  Fuelled so that it is structurally recursive; each
step consumes at least one character, so `fuel = cs.length` (as supplied by
`splitSep`) never runs out for a nonempty separator. -/
def splitSepAux (sep : List Char) : Nat → List Char → List Char → List (List Char)
  | 0, cs, acc => [acc.reverse ++ cs]
  | _ + 1, [], acc => [acc.reverse]
  | fuel + 1, c :: cs, acc =>
    if isPreL sep (c :: cs) then
      acc.reverse :: splitSepAux sep fuel ((c :: cs).drop sep.length) []
    else
      splitSepAux sep fuel cs (c :: acc)

/-- Python `cs.split(sep)` for nonempty `sep`. -/
def splitSep (sep cs : List Char) : List (List Char) :=
  splitSepAux sep cs.length cs []

/-- Decimal value of a digit string (caller has checked all characters are digits). -/
def digitsToNat (ds : List Char) : Nat :=
  ds.foldl (fun a c => a * 10 + (c.toNat - '0'.toNat)) 0

/-- Digit run accepted by Python `int`: nonempty, all decimal digits.
(Python additionally allows `_` separators between digits; no caller in this
repository produces those, and they are not modelled.) -/
def parseDigits (ds : List Char) : Option Nat :=
  if !ds.isEmpty && ds.all Char.isDigit then some (digitsToNat ds) else none

/-- Sign handling of Python `int(str)` after stripping. -/
def parsePyIntCore : List Char → Option Int
  | '+' :: ds => (parseDigits ds).map Int.ofNat
  | '-' :: ds => (parseDigits ds).map (fun n => -(n : Int))
  | ds => (parseDigits ds).map Int.ofNat

/-- Python `int(s)` for a string argument: strip whitespace, optional sign,
decimal digits; `none` models the raised `ValueError`. -/
def parsePyInt (s : String) : Option Int :=
  parsePyIntCore (trimL s.data)

/-- Python `str.lower()` (ASCII case mapping, which covers every string this
pipeline feeds it). -/
def lowerStr (s : String) : String :=
  String.mk (s.data.map Char.toLower)

/-- Python `sep.join(list)`. -/
def joinBy (sep : String) : List String → String
  | [] => ""
  | [x] => x
  | x :: xs => x ++ sep ++ joinBy sep xs

/-! ## `uzudt/annotator.py`: token dictionaries and `tokens_to_conllu` -/

/-- A JSON scalar as the annotator receives it from the LLM response: the
docstring of `tokens_to_conllu` documents the value types as `int` and `str`. -/
inductive PyVal where
  | int (n : Int)
  | str (s : String)
deriving DecidableEq, Repr

/-- Python `str(v)` on the two scalar shapes. -/
def pyStr : PyVal → String
  | .int n => toString n
  | .str s => s

/-- One token dict from the LLM, restricted to the keys `tokens_to_conllu`
reads: `"ID"`, `"FORM"`, `"LEMMA"`, `"UPOS"`, `"HEAD ID"`, `"DEPREL"`
(`"HEAD"` is documented as unused and never read).  `none` = key absent. -/
structure Token where
  id : Option PyVal := none
  form : Option PyVal := none
  lemmaVal : Option PyVal := none
  upos : Option PyVal := none
  headId : Option PyVal := none
  deprel : Option PyVal := none
deriving DecidableEq, Repr

/-- The two `ValueError` sites of `tokens_to_conllu`: the explicit
`raise ValueError("Token missing ID or FORM: ...")`, and the `ValueError`
raised by the `int(...)` builtin on a non-numeric literal. -/
inductive ConvError where
  | missingIdOrForm
  | invalidIntLiteral (s : String)
deriving DecidableEq, Repr

instance : DecidableEq (Except ConvError String) := fun a b =>
  match a, b with
  | .ok x, .ok y => if h : x = y then .isTrue (by rw [h]) else .isFalse (by simp [h])
  | .error x, .error y => if h : x = y then .isTrue (by rw [h]) else .isFalse (by simp [h])
  | .ok _, .error _ => .isFalse (by simp)
  | .error _, .ok _ => .isFalse (by simp)

instance : DecidableEq (Except ConvError (List String)) := fun a b =>
  match a, b with
  | .ok x, .ok y => if h : x = y then .isTrue (by rw [h]) else .isFalse (by simp [h])
  | .error x, .error y => if h : x = y then .isTrue (by rw [h]) else .isFalse (by simp [h])
  | .ok _, .error _ => .isFalse (by simp)
  | .error _, .ok _ => .isFalse (by simp)

/-- Python `int(v)` as applied to a token field value. -/
def pyIntOf : PyVal → Except ConvError Int
  | .int n => .ok n
  | .str s =>
    match parsePyInt s with
    | some n => .ok n
    | none => .error (.invalidIntLiteral s)

/-- Continuation of the loop body after `tid = int(t["ID"])` succeeded:
`head_id = int(t.get("HEAD ID", 0))` is the only remaining fallible step; the
pure string fields (`form`, `lemma`, `upos`, `deprel`, placeholders) and the
final `"\t".join` of the ten columns are evaluated in the success branch. -/
def tokenLineTail (t : Token) (formv : PyVal) (tid : Int) : Except ConvError String :=
  match pyIntOf (t.headId.getD (.int 0)) with
  | .error e => .error e
  | .ok headId =>
    let form := pyStr formv
    let lemma_ := pyStr (t.lemmaVal.getD (.str (lowerStr form)))
    let upos := pyStr (t.upos.getD (.str "X"))
    let deprel := pyStr (t.deprel.getD (.str "dep"))
    .ok (joinBy "\t"
      [toString tid, form, lemma_, upos, "_", "_", toString headId, deprel, "_", "_"])

/-- Loop body once the sanity check passed: `tid = int(t["ID"])` first. -/
def tokenLineCore (t : Token) (idv formv : PyVal) : Except ConvError String :=
  match pyIntOf idv with
  | .error e => .error e
  | .ok tid => tokenLineTail t formv tid

/-- Body of the `for t in tokens` loop of `tokens_to_conllu`: the
`"ID"`/`"FORM"` sanity check, then the coercions. -/
def tokenLine (t : Token) : Except ConvError String :=
  match t.id, t.form with
  | some idv, some formv => tokenLineCore t idv formv
  | _, _ => .error .missingIdOrForm

/-- The loop of `tokens_to_conllu` accumulating `lines`, stopping at the first
raised `ValueError`. -/
def buildLines : List Token → Except ConvError (List String)
  | [] => .ok []
  | t :: ts =>
    match tokenLine t with
    | .error e => .error e
    | .ok line =>
      match buildLines ts with
      | .error e => .error e
      | .ok rest => .ok (line :: rest)

/-- `tokens_to_conllu(tokens)`: one tab-separated line per token, joined by
newlines, with a trailing newline. -/
def tokens_to_conllu (tokens : List Token) : Except ConvError String :=
  match buildLines tokens with
  | .ok lines => .ok (joinBy "\n" lines ++ "\n")
  | .error e => .error e

/-- Every present `"ID"` / `"HEAD ID"` value of the token survives Python
`int(...)` coercion. -/
def tokenCoercible (t : Token) : Prop :=
  (∀ v, t.id = some v → ∃ n, pyIntOf v = .ok n) ∧
  (∀ v, t.headId = some v → ∃ n, pyIntOf v = .ok n)

/-! ## `scripts/annotate_batch.py`: checkpoint resolver -/

/-- One iteration of the `for line in f` loop of `get_last_processed_index`:
strip the line, and if it starts with `"# sent_id = auto-"`, take the text
after the last `"auto-"` (Python `line.split("auto-")[-1]`), parse it with
`int`, and keep it if it beats the running maximum; a parse failure
(`ValueError`) is silently skipped. -/
def processHeaderLine (last : Int) (rawLine : List Char) : Int :=
  let line := trimL rawLine
  if isPreL "# sent_id = auto-".data line then
    match parsePyInt (String.mk ((splitSep "auto-".data line).getLastD [])) with
    | some n => if n > last then n else last
    | none => last
  else last

/-- `get_last_processed_index()`: `none` models a missing
`data/gold/uzudt_auto.conllu`; otherwise fold the loop over the file's lines
starting from `last = 0`. -/
def get_last_processed_index (gold : Option String) : Int :=
  match gold with
  | none => 0
  | some text => (splitSep ['\n'] text.data).foldl processHeaderLine 0

/-- Spec-side reading of one line (for the checkpoint-derivation claim): the
integer `N` when the (stripped) line has the form `# sent_id = auto-N`,
`none` when it is not such a header or `N` is not an integer. -/
def headerValOf (rawLine : List Char) : Option Int :=
  let line := trimL rawLine
  if isPreL "# sent_id = auto-".data line then
    parsePyInt (String.mk ((splitSep "auto-".data line).getLastD []))
  else none

/-- Spec-side reading (for the checkpoint-derivation claim): the integer `N` of
every line of the form `# sent_id = auto-N`, in file order, malformed (non
integer) header values skipped. -/
def headerValuesSpec (text : String) : List Int :=
  (splitSep ['\n'] text.data).filterMap headerValOf

/-! ## `scripts/annotate_batch.py`: the orchestrator `main` -/

/-- Outcome of `annotate_one_sentence(sent, i)` as `main` observes it:
either a raised exception (any `Exception e`, carried as its message), or the
returned tuple `(ok, conllu_str, tokens, v_log)` with `tokens` carried in the
`json.dumps(tokens, ensure_ascii=False, indent=2)` form `main` writes. -/
inductive AnnotOutcome where
  | exn (err : String)
  | result (ok : Bool) (conllu : String) (tokensJson : String) (vlog : String)
deriving DecidableEq, Repr

/-- The externally visible state `main` mutates: the text appended to
`data/gold/uzudt_auto.conllu` (with the same appends also recorded as a
structured `commits` trace), and the diagnostic files written under
`data/logs/`, as `(file name, content)` pairs in write order. -/
structure RunState where
  corpusAppended : String
  commits : List (Nat × String × String)
  files : List (String × String)
deriving DecidableEq, Repr

def initRunState : RunState := { corpusAppended := "", commits := [], files := [] }

/-- The four `gold_out.write` calls of a successful commit for sentence `i`:
header, text line, the CoNLL-U record, and the blank-line separator. -/
def commitBlock (i : Nat) (sent conllu : String) : String :=
  "# sent_id = auto-" ++ toString i ++ "\n" ++ "# text = " ++ sent ++ "\n" ++ conllu ++ "\n"

/-- Python `f"{i:04d}"`. -/
def pad4 (i : Nat) : String :=
  let s := toString i
  String.mk (List.replicate (4 - s.length) '0') ++ s

def exnFileName (i : Nat) : String := "sentence_" ++ pad4 i ++ "_exception.txt"

/-- Content of the exception diagnostic file. -/
def exnFileContent (i : Nat) (sent err : String) : String :=
  "Sentence index: " ++ toString i ++ "\nSentence: " ++ sent ++ "\n\nError: " ++ err ++ "\n"

def jsonFileName (i : Nat) : String := "sentence_" ++ pad4 i ++ ".json"

def conlluFileName (i : Nat) : String := "sentence_" ++ pad4 i ++ ".conllu"

def valLogFileName (i : Nat) : String := "sentence_" ++ pad4 i ++ ".val.log"

/-- The `for i, sent in enumerate(sentences, start=1)` loop of `main`:
skip while `i < start_from`; otherwise annotate via the oracle; on an
exception write one diagnostic file and `break`; on `ok` append the commit
block and continue; on `not ok` write the three diagnostic files and `break`. -/
def processLoop (annot : Nat → AnnotOutcome) (startFrom : Nat) :
    Nat → List String → RunState → RunState
  | _, [], st => st
  | i, sent :: rest, st =>
    if i < startFrom then
      processLoop annot startFrom (i + 1) rest st
    else
      match annot i with
      | .exn e =>
        { st with files := st.files ++ [(exnFileName i, exnFileContent i sent e)] }
      | .result ok conllu tokensJson vlog =>
        if ok then
          processLoop annot startFrom (i + 1) rest
            { st with
              corpusAppended := st.corpusAppended ++ commitBlock i sent conllu,
              commits := st.commits ++ [(i, sent, conllu)] }
        else
          { st with files := st.files ++
              [(jsonFileName i, tokensJson), (conlluFileName i, conllu),
               (valLogFileName i, vlog)] }

/-- Resume-index resolution of `main`: `start_from = args.start_from` if given
else `get_last_processed_index() + 1`, then `if start_from < 1: start_from = 1`. -/
def resolveStart (startArg : Option Int) (gold : Option String) : Int :=
  let inferredStart := get_last_processed_index gold + 1
  let s := startArg.getD inferredStart
  if s < 1 then 1 else s

/-- `main()` after argument parsing: `sentences` is the (already stripped,
blank-filtered) input list, `startArg` the `--start-from` override, `gold` the
current content of `uzudt_auto.conllu` (or `none` if absent), `annot` the
per-index outcome of `annotate_one_sentence`.  If the resolved start exceeds
the sentence count, `main` returns with nothing done; otherwise it runs the
per-sentence loop from index 1. -/
def mainRun (sentences : List String) (startArg : Option Int) (gold : Option String)
    (annot : Nat → AnnotOutcome) : RunState :=
  let total := sentences.length
  let startFrom := resolveStart startArg gold
  if startFrom > (total : Int) then initRunState
  else processLoop annot startFrom.toNat 1 sentences initRunState

/-! ## Derived notions used to state the claims -/

/-- Corpus text of a commit trace: concatenation of the commit blocks. -/
def corpusOf : List (Nat × String × String) → String
  | [] => ""
  | (i, sent, c) :: rest => commitBlock i sent c ++ corpusOf rest

/-- The sentence at 1-based index `j` of the input list. -/
def sentAt (sentences : List String) (j : Nat) : String :=
  sentences.getD (j - 1) ""

/-- The commit-identifier discipline claimed of the corpus: each committed
`auto-N` is exactly one greater than the highest `N` present in the corpus at
the time of that commit (`base` = highest `N` before the run). -/
def commitIdsFollow (base : Int) : List Nat → Bool
  | [] => true
  | n :: rest => ((n : Int) == base + 1) && commitIdsFollow (n : Int) rest

/-- The corpus-validation invariant of a run state: the appended corpus text is
exactly the concatenation of the committed blocks (no partial record), and
every committed record was returned by the validator with `ok = True`. -/
def corpusValidated (annot : Nat → AnnotOutcome) (st : RunState) : Prop :=
  st.corpusAppended = corpusOf st.commits ∧
  ∀ c ∈ st.commits, ∃ tj vl, annot c.1 = .result true c.2.2 tj vl

/-! ## Concrete oracles and corpora for witness runs -/

/-- Oracle whose every sentence annotates and validates with a fixed record. -/
def annotConst : Nat → AnnotOutcome :=
  fun _ => .result true "1\tw\tw\tX\t_\t_\t0\tdep\t_\t_\n" "[]" ""

def cfW (j : Nat) : String := "ok" ++ toString j ++ "\n"

def tfW (j : Nat) : String := "tj" ++ toString j

def vfW (j : Nat) : String := "vl" ++ toString j

/-- Oracle that fails validation exactly at sentence index 2. -/
def annotInvalidAt2 : Nat → AnnotOutcome :=
  fun i => if i = 2 then .result false "BAD\n" "TOK" "LOG"
           else .result true (cfW i) (tfW i) (vfW i)

/-- Oracle that raises exactly at sentence index 2. -/
def annotExnAt2 : Nat → AnnotOutcome :=
  fun i => if i = 2 then .exn "boom"
           else .result true (cfW i) (tfW i) (vfW i)

/-- A corpus whose highest committed header is `auto-7`. -/
def goldSeven : String :=
  "# sent_id = auto-7\n# text = old\n1\tA\tA\tX\t_\t_\t0\tdep\t_\t_\n\n"

/-! ## Lemmas about the record converter -/

lemma tokenLine_missing {t : Token} (h : t.id = none ∨ t.form = none) :
    tokenLine t = .error .missingIdOrForm := by
  rcases h with h | h
  · cases hf : t.form <;> simp [tokenLine, h, hf]
  · cases hi : t.id <;> simp [tokenLine, h, hi]

lemma pyIntOf_error {v : PyVal} {e : ConvError} (h : pyIntOf v = .error e) :
    ∃ s, e = .invalidIntLiteral s := by
  cases v with
  | int n => simp [pyIntOf] at h
  | str s =>
    cases hp : parsePyInt s with
    | none => simp [pyIntOf, hp] at h; exact ⟨s, h.symm⟩
    | some n => simp [pyIntOf, hp] at h

lemma tokenLine_eq_core {t : Token} {iv fv : PyVal}
    (hid : t.id = some iv) (hform : t.form = some fv) :
    tokenLine t = tokenLineCore t iv fv := by
  rw [tokenLine, hid, hform]

lemma tokenLine_present_error {t : Token} {iv fv : PyVal} {e : ConvError}
    (hid : t.id = some iv) (hform : t.form = some fv)
    (h : tokenLine t = .error e) : ∃ s, e = .invalidIntLiteral s := by
  rw [tokenLine_eq_core hid hform] at h
  cases h1 : pyIntOf iv with
  | error e1 =>
    have h2 : tokenLineCore t iv fv = .error e1 := by rw [tokenLineCore, h1]
    rw [h2] at h
    cases h
    exact pyIntOf_error h1
  | ok tid =>
    have h2 : tokenLineCore t iv fv = tokenLineTail t fv tid := by rw [tokenLineCore, h1]
    rw [h2] at h
    cases h3 : pyIntOf (t.headId.getD (.int 0)) with
    | error e2 =>
      have h4 : tokenLineTail t fv tid = .error e2 := by rw [tokenLineTail, h3]
      rw [h4] at h
      cases h
      exact pyIntOf_error h3
    | ok hd =>
      obtain ⟨l, h4⟩ : ∃ l, tokenLineTail t fv tid = .ok l :=
        ⟨_, by rw [tokenLineTail, h3]⟩
      rw [h4] at h
      cases h

lemma tokenLine_ok_of_coercible {t : Token} {iv fv : PyVal}
    (hid : t.id = some iv) (hform : t.form = some fv)
    (hc : tokenCoercible t) : ∃ l, tokenLine t = .ok l := by
  obtain ⟨n, hn⟩ := hc.1 iv hid
  have e2 : tokenLineCore t iv fv = tokenLineTail t fv n := by rw [tokenLineCore, hn]
  obtain ⟨m, hm⟩ : ∃ m, pyIntOf (t.headId.getD (.int 0)) = .ok m := by
    cases hh0 : t.headId with
    | none => exact ⟨0, rfl⟩
    | some hv =>
      obtain ⟨m, hm⟩ := hc.2 hv hh0
      exact ⟨m, hm⟩
  obtain ⟨l, e3⟩ : ∃ l, tokenLineTail t fv n = .ok l := ⟨_, by rw [tokenLineTail, hm]⟩
  exact ⟨l, by rw [tokenLine_eq_core hid hform, e2, e3]⟩

lemma buildLines_error_of_mem {toks : List Token} {t : Token}
    (hmem : t ∈ toks) (herr : ∃ e, tokenLine t = .error e) :
    ∃ e, buildLines toks = .error e := by
  induction toks with
  | nil => cases hmem
  | cons x ts ih =>
    cases hx : tokenLine x with
    | error e => exact ⟨e, by simp [buildLines, hx]⟩
    | ok l =>
      rcases List.mem_cons.mp hmem with rfl | hmem'
      · obtain ⟨e, he⟩ := herr
        rw [hx] at he; cases he
      · obtain ⟨e, he⟩ := ih hmem'
        exact ⟨e, by simp [buildLines, hx, he]⟩

lemma buildLines_length {toks : List Token} {lines : List String}
    (h : buildLines toks = .ok lines) : lines.length = toks.length := by
  induction toks generalizing lines with
  | nil => cases h; rfl
  | cons x ts ih =>
    rw [buildLines] at h
    cases hx : tokenLine x with
    | error e => rw [hx] at h; cases h
    | ok l =>
      rw [hx] at h
      cases hts : buildLines ts with
      | error e => rw [hts] at h; cases h
      | ok rest =>
        rw [hts] at h
        cases h
        simp [ih hts]

lemma tokens_to_conllu_error_iff {toks : List Token} {e : ConvError} :
    tokens_to_conllu toks = .error e ↔ buildLines toks = .error e := by
  rw [tokens_to_conllu]
  cases h : buildLines toks <;> simp

lemma buildLines_missing_of_coercible :
    ∀ (toks : List Token), (∀ t ∈ toks, tokenCoercible t) →
      (∃ t ∈ toks, t.id = none ∨ t.form = none) →
      buildLines toks = .error .missingIdOrForm := by
  intro toks
  induction toks with
  | nil => rintro _ ⟨t, hmem, _⟩; cases hmem
  | cons x ts ih =>
    rintro hco ⟨t, hmem, hmiss⟩
    by_cases hx : x.id = none ∨ x.form = none
    · simp [buildLines, tokenLine_missing hx]
    · push_neg at hx
      obtain ⟨iv, hiv⟩ := Option.ne_none_iff_exists'.mp hx.1
      obtain ⟨fv, hfv⟩ := Option.ne_none_iff_exists'.mp hx.2
      obtain ⟨l, hl⟩ := tokenLine_ok_of_coercible hiv hfv (hco x (List.mem_cons_self x ts))
      have hts : buildLines ts = .error .missingIdOrForm := by
        rcases List.mem_cons.mp hmem with rfl | hmem'
        · exact absurd hmiss (by push_neg; exact ⟨hx.1, hx.2⟩)
        · exact ih (fun u hu => hco u (List.mem_cons_of_mem x hu)) ⟨t, hmem', hmiss⟩
      simp [buildLines, hl, hts]

lemma buildLines_ne_missing_of_fields :
    ∀ (toks : List Token), (∀ t ∈ toks, t.id ≠ none ∧ t.form ≠ none) →
      buildLines toks ≠ .error .missingIdOrForm := by
  intro toks
  induction toks with
  | nil => intro _ h; cases h
  | cons x ts ih =>
    intro hfields h
    have hx := hfields x (List.mem_cons_self x ts)
    obtain ⟨iv, hiv⟩ := Option.ne_none_iff_exists'.mp hx.1
    obtain ⟨fv, hfv⟩ := Option.ne_none_iff_exists'.mp hx.2
    rw [buildLines] at h
    cases hl : tokenLine x with
    | error e =>
      rw [hl] at h
      cases h
      obtain ⟨s, hs⟩ := tokenLine_present_error hiv hfv hl
      cases hs
    | ok l =>
      rw [hl] at h
      cases hts : buildLines ts with
      | error e =>
        rw [hts] at h
        cases h
        exact ih (fun u hu => hfields u (List.mem_cons_of_mem x hu)) hts
      | ok rest => rw [hts] at h; cases h

/-! ## Claims C7, C8, C9, C10 — the record converter -/

/-- C7 (amended): a TokenDescription sequence containing an element that lacks
the `"ID"` or the `"FORM"` field always makes `tokens_to_conllu` fail, with no
partial output; the failure is the missing-field `ValueError`
(`MalformedTokenError`) provided every element's present `"ID"`/`"HEAD ID"`
values are integer-coercible — an earlier element with a non-coercible value
fails first, with the `int()` coercion error instead; and a sequence in which
every element carries both fields never fails with the missing-field error. -/
theorem C7_missing_field_failure :
    (∀ toks : List Token, (∃ t ∈ toks, t.id = none ∨ t.form = none) →
      ∃ e, tokens_to_conllu toks = .error e)
    ∧ (∀ toks : List Token, (∀ t ∈ toks, tokenCoercible t) →
      (∃ t ∈ toks, t.id = none ∨ t.form = none) →
      tokens_to_conllu toks = .error .missingIdOrForm)
    ∧ (∀ toks : List Token, (∀ t ∈ toks, t.id ≠ none ∧ t.form ≠ none) →
      tokens_to_conllu toks ≠ .error .missingIdOrForm) := by
  refine ⟨?_, ?_, ?_⟩
  · rintro toks ⟨t, hmem, hmiss⟩
    obtain ⟨e, he⟩ := buildLines_error_of_mem hmem ⟨_, tokenLine_missing hmiss⟩
    exact ⟨e, tokens_to_conllu_error_iff.mpr he⟩
  · intro toks hco hmiss
    exact tokens_to_conllu_error_iff.mpr (buildLines_missing_of_coercible toks hco hmiss)
  · intro toks hfields h
    exact buildLines_ne_missing_of_fields toks hfields (tokens_to_conllu_error_iff.mp h)

/-- Witness for C7: the singleton sequence whose element lacks `"FORM"`
converts to the missing-field error. -/
theorem C7_witness :
    tokens_to_conllu [{ id := some (.int 1) }] = .error .missingIdOrForm :=
  C7_missing_field_failure.2.1 [{ id := some (.int 1) }]
    (by rintro t ht; rw [List.mem_singleton] at ht; subst ht
        exact ⟨fun v hv => by cases hv; exact ⟨1, rfl⟩, fun v hv => by cases hv⟩)
    ⟨_, List.mem_singleton.mpr rfl, Or.inr rfl⟩

/-- Counterexample to C7 as stated: in this sequence the second element lacks
`"FORM"`, yet conversion fails with the `int()` coercion error raised on the
first element's non-numeric `"ID"` value `"x"`, not with the missing-field
(`MalformedTokenError`) one. -/
theorem C7_counterexample :
    (∃ t ∈ ([{ id := some (.str "x"), form := some (.str "a") },
             { id := some (.int 2) }] : List Token), t.id = none ∨ t.form = none)
    ∧ tokens_to_conllu [{ id := some (.str "x"), form := some (.str "a") },
             { id := some (.int 2) }] = .error (.invalidIntLiteral "x")
    ∧ tokens_to_conllu [{ id := some (.str "x"), form := some (.str "a") },
             { id := some (.int 2) }] ≠ .error .missingIdOrForm := by
  refine ⟨⟨{ id := some (.int 2) }, by simp, Or.inr rfl⟩, by decide, by decide⟩

/-- C8: a token carrying only `"ID"` and `"FORM"` renders with lemma defaulted
to the lowercased form, UPOS to `"X"`, head to `0`, DEPREL to `"dep"`, and the
XPOS/FEATS/DEPS/MISC columns as `"_"`; concretely, position 1 with form
`"kitob"` yields exactly `1\tkitob\tkitob\tX\t_\t_\t0\tdep\t_\t_` (plus the
record's trailing newline). -/
theorem C8_default_filling :
    (∀ (n : Int) (f : String),
      tokenLine { id := some (.int n), form := some (.str f) } =
        .ok (joinBy "\t"
          [toString n, f, lowerStr f, "X", "_", "_", toString (0 : Int), "dep", "_", "_"]))
    ∧ tokens_to_conllu [{ id := some (.int 1), form := some (.str "kitob") }] =
        .ok "1\tkitob\tkitob\tX\t_\t_\t0\tdep\t_\t_\n" := by
  constructor
  · intro n f
    rfl
  · decide

/-- C9: an element whose `"ID"` (or present `"HEAD ID"`) value is a string that
Python `int()` cannot parse makes conversion fail even though both required
fields are present; a decimal string such as `"3"` is accepted and rendered as
an integer. -/
theorem C9_nonint_positions :
    (∀ (toks : List Token) (t : Token), t ∈ toks →
      t.id ≠ none → t.form ≠ none →
      ((∃ s, t.id = some (.str s) ∧ parsePyInt s = none) ∨
       (∃ s, t.headId = some (.str s) ∧ parsePyInt s = none)) →
      ∃ e, tokens_to_conllu toks = .error e)
    ∧ tokens_to_conllu [{ id := some (.str "3"), form := some (.str "uy"), headId := some (.str "0") }] = .ok "3\tuy\tuy\tX\t_\t_\t0\tdep\t_\t_\n" := by
  constructor
  · intro toks t hmem hid hform hbad
    obtain ⟨iv, hiv⟩ := Option.ne_none_iff_exists'.mp hid
    obtain ⟨fv, hfv⟩ := Option.ne_none_iff_exists'.mp hform
    have hcore : tokenLine t = tokenLineCore t iv fv := tokenLine_eq_core hiv hfv
    have herr : ∃ e, tokenLine t = .error e := by
      rcases hbad with ⟨s, hs, hp⟩ | ⟨s, hs, hp⟩
      · rw [hiv] at hs
        injection hs with hs'
        subst hs'
        have h1 : pyIntOf (PyVal.str s) = .error (.invalidIntLiteral s) := by
          simp [pyIntOf, hp]
        exact ⟨.invalidIntLiteral s, by rw [hcore, tokenLineCore, h1]⟩
      · cases h1 : pyIntOf iv with
        | error e1 => exact ⟨e1, by rw [hcore, tokenLineCore, h1]⟩
        | ok tid =>
          have h2 : tokenLineCore t iv fv = tokenLineTail t fv tid := by
            rw [tokenLineCore, h1]
          have h3 : pyIntOf (t.headId.getD (.int 0)) = .error (.invalidIntLiteral s) := by
            rw [hs]
            simp [pyIntOf, hp]
          exact ⟨.invalidIntLiteral s, by rw [hcore, h2, tokenLineTail, h3]⟩
    obtain ⟨e, he⟩ := buildLines_error_of_mem hmem herr
    exact ⟨e, tokens_to_conllu_error_iff.mpr he⟩
  · decide

/-- Witness for C9: the singleton whose `"ID"` value is the non-numeric string
`"x"` fails conversion. -/
theorem C9_witness :
    ∃ e, tokens_to_conllu [{ id := some (.str "x"), form := some (.str "a") }] = .error e :=
  C9_nonint_positions.1 [{ id := some (.str "x"), form := some (.str "a") }]
    { id := some (.str "x"), form := some (.str "a") }
    (List.mem_singleton.mpr rfl) (by simp) (by simp)
    (Or.inl ⟨"x", rfl, by decide⟩)

/-- C10: the empty TokenDescription sequence converts successfully to the
one-character record `"\n"`; and every successful conversion is the
newline-join of one line per token followed by a single trailing newline. -/
theorem C10_empty_and_shape :
    tokens_to_conllu [] = .ok "\n"
    ∧ (∀ (toks : List Token) (out : String), tokens_to_conllu toks = .ok out →
      ∃ lines, buildLines toks = .ok lines ∧ lines.length = toks.length ∧
        out = joinBy "\n" lines ++ "\n") := by
  constructor
  · rfl
  · intro toks out h
    rw [tokens_to_conllu] at h
    cases hb : buildLines toks with
    | error e => rw [hb] at h; cases h
    | ok lines =>
      rw [hb] at h
      cases h
      exact ⟨lines, rfl, buildLines_length hb, rfl⟩

/-- Witness for C10: the shape statement applied to the concrete one-token
conversion of C8's example. -/
theorem C10_witness :
    ∃ lines, buildLines [{ id := some (.int 1), form := some (.str "kitob") }] = .ok lines ∧
      lines.length = [({ id := some (.int 1), form := some (.str "kitob") } : Token)].length ∧
      "1\tkitob\tkitob\tX\t_\t_\t0\tdep\t_\t_\n" = joinBy "\n" lines ++ "\n" :=
  C10_empty_and_shape.2 [{ id := some (.int 1), form := some (.str "kitob") }]
    "1\tkitob\tkitob\tX\t_\t_\t0\tdep\t_\t_\n" (by decide)

/-! ## Lemmas about the checkpoint resolver -/

/-- The per-line step of the resolver agrees with the spec-side header value:
it is a running `max` over the parsed header values. -/
lemma processHeaderLine_eq (a : Int) (line : List Char) :
    processHeaderLine a line =
      match headerValOf line with
      | some n => max a n
      | none => a := by
  rw [processHeaderLine, headerValOf]
  split
  · cases h : parsePyInt (String.mk ((splitSep "auto-".data (trimL line)).getLastD [])) with
    | some n =>
      simp only [h]
      rw [max_def]
      split <;> split <;> omega
    | none => simp [h]
  · rfl

lemma foldl_processHeaderLine (lines : List (List Char)) :
    ∀ a : Int, lines.foldl processHeaderLine a = (lines.filterMap headerValOf).foldl max a := by
  induction lines with
  | nil => intro a; rfl
  | cons x rest ih =>
    intro a
    rw [List.foldl_cons, processHeaderLine_eq]
    cases h : headerValOf x with
    | some n => simp [List.filterMap_cons, h, ih]
    | none => simp [List.filterMap_cons, h, ih]

lemma processHeaderLine_mono (a : Int) (line : List Char) : a ≤ processHeaderLine a line := by
  rw [processHeaderLine]
  split
  · split
    · split <;> omega
    · omega
  · omega

lemma foldl_processHeaderLine_mono (lines : List (List Char)) :
    ∀ a : Int, a ≤ lines.foldl processHeaderLine a := by
  induction lines with
  | nil => intro a; exact le_refl a
  | cons x rest ih =>
    intro a
    exact le_trans (processHeaderLine_mono a x) (ih _)

lemma get_last_processed_index_nonneg (gold : Option String) :
    0 ≤ get_last_processed_index gold := by
  cases gold with
  | none => exact le_refl 0
  | some text => exact foldl_processHeaderLine_mono _ 0

lemma resolveStart_pos (startArg : Option Int) (gold : Option String) :
    1 ≤ resolveStart startArg gold := by
  rw [resolveStart]
  split <;> omega

/-! ## Lemmas about the orchestrator loop -/

lemma corpusOf_append (a b : List (Nat × String × String)) :
    corpusOf (a ++ b) = corpusOf a ++ corpusOf b := by
  induction a with
  | nil => simp [corpusOf, String.empty_append]
  | cons hd tl ih =>
    obtain ⟨i, sent, c⟩ := hd
    simp [corpusOf, ih, String.append_assoc]

lemma processLoop_skip_step {annot : Nat → AnnotOutcome} {s i : Nat} {x : String}
    {rest : List String} {st : RunState} (hlt : i < s) :
    processLoop annot s i (x :: rest) st = processLoop annot s (i + 1) rest st := by
  simp [processLoop, hlt]

lemma processLoop_exn_step {annot : Nat → AnnotOutcome} {s i : Nat} {x : String}
    {rest : List String} {st : RunState} {e : String}
    (hge : ¬ i < s) (ha : annot i = .exn e) :
    processLoop annot s i (x :: rest) st =
      { st with files := st.files ++ [(exnFileName i, exnFileContent i x e)] } := by
  simp [processLoop, hge, ha]

lemma processLoop_invalid_step {annot : Nat → AnnotOutcome} {s i : Nat} {x : String}
    {rest : List String} {st : RunState} {c tj vl : String}
    (hge : ¬ i < s) (ha : annot i = .result false c tj vl) :
    processLoop annot s i (x :: rest) st =
      { st with files := st.files ++
          [(jsonFileName i, tj), (conlluFileName i, c), (valLogFileName i, vl)] } := by
  simp [processLoop, hge, ha]

lemma processLoop_commit_step {annot : Nat → AnnotOutcome} {s i : Nat} {x : String}
    {rest : List String} {st : RunState} {c tj vl : String}
    (hge : ¬ i < s) (ha : annot i = .result true c tj vl) :
    processLoop annot s i (x :: rest) st =
      processLoop annot s (i + 1) rest
        { st with
          corpusAppended := st.corpusAppended ++ commitBlock i x c,
          commits := st.commits ++ [(i, x, c)] } := by
  simp [processLoop, hge, ha]

/-- While `i < s` the loop only `continue`s: it drops `s - i` sentences and
proceeds from index `max i s`. -/
lemma processLoop_skip (annot : Nat → AnnotOutcome) (s : Nat) :
    ∀ (l : List String) (i : Nat) (st : RunState),
      processLoop annot s i l st = processLoop annot s (max i s) (l.drop (s - i)) st := by
  intro l
  induction l with
  | nil =>
    intro i st
    simp [processLoop]
  | cons x rest ih =>
    intro i st
    by_cases hlt : i < s
    · rw [processLoop_skip_step hlt, ih (i + 1) st]
      have h2 : max (i + 1) s = max i s := by omega
      have h3 : s - i = (s - (i + 1)) + 1 := by omega
      rw [h2, h3, List.drop_succ_cons]
    · have h2 : max i s = i := by omega
      have h3 : s - i = 0 := by omega
      rw [h2, h3, List.drop_zero]

/-- Closed form of an all-valid stretch of the loop: if every index in
`[i, i+m)` annotates successfully and validates, the loop commits those `m`
sentences in order and continues at `i + m`. -/
lemma processLoop_ok_run (annot : Nat → AnnotOutcome) (s : Nat) (cf tf vf sf : Nat → String) :
    ∀ (m i : Nat) (l : List String) (st : RunState),
      s ≤ i → m ≤ l.length →
      (∀ p, p < m → l[p]? = some (sf (i + p))) →
      (∀ j, i ≤ j → j < i + m → annot j = .result true (cf j) (tf j) (vf j)) →
      processLoop annot s i l st =
        processLoop annot s (i + m) (l.drop m)
          { corpusAppended := st.corpusAppended ++
              corpusOf ((List.range' i m).map (fun j => (j, sf j, cf j))),
            commits := st.commits ++ (List.range' i m).map (fun j => (j, sf j, cf j)),
            files := st.files } := by
  intro m
  induction m with
  | zero =>
    intro i l st _ _ _ _
    simp [corpusOf, String.append_empty]
  | succ m ihm =>
    intro i l st hs hm hget hann
    cases l with
    | nil => simp at hm
    | cons x rest =>
      have hx : x = sf i := by
        have h0 := hget 0 (by omega)
        simpa using h0
      have hge : ¬ i < s := by omega
      have ha : annot i = .result true (cf i) (tf i) (vf i) := hann i (by omega) (by omega)
      rw [processLoop_commit_step hge ha]
      rw [ihm (i + 1) rest
            { st with
              corpusAppended := st.corpusAppended ++ commitBlock i x (cf i),
              commits := st.commits ++ [(i, x, cf i)] }
            (by omega) (by simpa using hm)
            (by
              intro p hp
              have h1 := hget (p + 1) (by omega)
              have h2 : i + (p + 1) = i + 1 + p := by omega
              rw [h2] at h1
              simpa using h1)
            (by
              intro j h1 h2
              exact hann j (by omega) (by omega))]
      have hidx : i + 1 + m = i + (m + 1) := by omega
      rw [hidx, hx]
      have hrange : List.range' i (m + 1) = i :: List.range' (i + 1) m := List.range'_succ i m 1
      rw [hrange]
      simp [corpusOf, String.append_assoc]

/-- The commit indices a loop run adds from start index `i ≥ s` form a
consecutive range starting at `i`. -/
lemma processLoop_commits_consecutive (annot : Nat → AnnotOutcome) (s : Nat) :
    ∀ (l : List String) (i : Nat) (st : RunState), s ≤ i →
      ∃ m, (processLoop annot s i l st).commits.map Prod.fst =
        st.commits.map Prod.fst ++ List.range' i m := by
  intro l
  induction l with
  | nil =>
    intro i st _
    exact ⟨0, by simp [processLoop]⟩
  | cons x rest ih =>
    intro i st hs
    have hge : ¬ i < s := by omega
    cases ha : annot i with
    | exn e => exact ⟨0, by rw [processLoop_exn_step hge ha]; simp⟩
    | result ok c tj vl =>
      cases ok with
      | true =>
        obtain ⟨m, hm⟩ := ih (i + 1)
          { st with
            corpusAppended := st.corpusAppended ++ commitBlock i x c,
            commits := st.commits ++ [(i, x, c)] } (by omega)
        refine ⟨m + 1, ?_⟩
        rw [processLoop_commit_step hge ha, hm]
        have hrange : List.range' i (m + 1) = i :: List.range' (i + 1) m := List.range'_succ i m 1
        rw [hrange]
        simp
      | false => exact ⟨0, by rw [processLoop_invalid_step hge ha]; simp⟩

lemma initRunState_validated (annot : Nat → AnnotOutcome) :
    corpusValidated annot initRunState := by
  refine ⟨rfl, ?_⟩
  intro c hc
  cases hc

/-- One-loop preservation of the corpus-validation invariant. -/
lemma processLoop_validated (annot : Nat → AnnotOutcome) (s : Nat) :
    ∀ (l : List String) (i : Nat) (st : RunState),
      corpusValidated annot st → corpusValidated annot (processLoop annot s i l st) := by
  intro l
  induction l with
  | nil =>
    intro i st h
    simpa [processLoop] using h
  | cons x rest ih =>
    intro i st h
    by_cases hlt : i < s
    · rw [processLoop_skip_step hlt]
      exact ih _ _ h
    · cases ha : annot i with
      | exn e =>
        rw [processLoop_exn_step hlt ha]
        exact h
      | result ok c tj vl =>
        cases ok with
        | true =>
          rw [processLoop_commit_step hlt ha]
          apply ih
          constructor
          · show st.corpusAppended ++ commitBlock i x c = corpusOf (st.commits ++ [(i, x, c)])
            rw [corpusOf_append, h.1]
            simp [corpusOf, String.append_empty]
          · intro cc hcc
            rcases List.mem_append.mp hcc with hcc | hcc
            · exact h.2 cc hcc
            · rw [List.mem_singleton] at hcc
              subst hcc
              exact ⟨tj, vl, ha⟩
        | false =>
          rw [processLoop_invalid_step hlt ha]
          exact h

lemma commitIdsFollow_range' :
    ∀ (m n : Nat) (b : Int), (n : Int) = b + 1 →
      commitIdsFollow b (List.range' n m) = true := by
  intro m
  induction m with
  | zero => intro n b _; rfl
  | succ m ih =>
    intro n b hn
    rw [List.range'_succ n m 1, commitIdsFollow]
    have h1 : ((n : Int) == b + 1) = true := by simp [hn]
    rw [h1, Bool.true_and]
    exact ih (n + 1) (n : Int) (by push_cast; ring)

lemma mainRun_eq_processLoop {sentences : List String} {startArg : Option Int}
    {gold : Option String} {annot : Nat → AnnotOutcome}
    (hcond : ¬ resolveStart startArg gold > (sentences.length : Int)) :
    mainRun sentences startArg gold annot =
      processLoop annot (resolveStart startArg gold).toNat 1 sentences initRunState := by
  simp only [mainRun]
  rw [if_neg hcond]

/-! ## Claims C1..C6 — checkpoint resolver and orchestrator -/

/-- C4: the checkpoint resolver returns the running maximum (from 0) of the
integer values of all `# sent_id = auto-N` header lines — so the maximum, not
the count and not the last seen — returns 0 for a missing corpus or one with no
such header, and silently skips headers whose value is not an integer. -/
theorem C4_checkpoint_derivation :
    (∀ text : String,
      get_last_processed_index (some text) = (headerValuesSpec text).foldl max 0)
    ∧ get_last_processed_index none = 0
    ∧ get_last_processed_index
        (some "# sent_id = auto-3\n# sent_id = auto-1\n# sent_id = auto-7\n") = 7
    ∧ get_last_processed_index
        (some "# sent_id = auto-3\n# sent_id = auto-7\n# sent_id = auto-1\n") = 7
    ∧ get_last_processed_index
        (some "no headers here\n1\tw\tw\tX\t_\t_\t0\tdep\t_\t_\n") = 0
    ∧ get_last_processed_index
        (some "# sent_id = auto-3\n# sent_id = auto-oops\n") = 3 := by
  refine ⟨?_, rfl, by decide, by decide, by decide, by decide⟩
  intro text
  show (splitSep ['\n'] text.data).foldl processHeaderLine 0 =
    ((splitSep ['\n'] text.data).filterMap headerValOf).foldl max 0
  exact foldl_processHeaderLine _ 0

/-- C5: the starting index is the explicit override if supplied, else the
checkpoint + 1, clamped to at least 1; and whenever it exceeds the sentence
count the run is a no-op — nothing appended, no file written, and the result
does not depend on the annotation oracle (no external call). -/
theorem C5_resume_resolution (startArg : Option Int) (gold : Option String) :
    resolveStart startArg gold = max 1 (startArg.getD (get_last_processed_index gold + 1))
    ∧ ∀ (sentences : List String) (annot : Nat → AnnotOutcome),
        (sentences.length : Int) < resolveStart startArg gold →
        mainRun sentences startArg gold annot = initRunState := by
  constructor
  · rw [resolveStart]
    split_ifs with h
    · rw [max_eq_left (by omega)]
    · rw [max_eq_right (by omega)]
  · intro sentences annot h
    simp only [mainRun]
    rw [if_pos h]

/-- Witness for C5: with override 5 and two input sentences the run is a no-op. -/
theorem C5_witness :
    ((["a", "b"] : List String).length : Int) < resolveStart (some 5) none
    ∧ mainRun ["a", "b"] (some 5) none annotConst = initRunState :=
  ⟨by decide, (C5_resume_resolution (some 5) none).2 ["a", "b"] annotConst (by decide)⟩

/-- C1: the corpus-validation invariant — the appended corpus is exactly the
concatenation of the committed blocks (never a partial record), and every
committed record was passed by the validator (`ok = True`) — is preserved by
the per-sentence loop from any state (hence holds at every point of a run) and
holds of the final state of every run. -/
theorem C1_corpus_validation :
    (∀ (annot : Nat → AnnotOutcome) (s i : Nat) (l : List String) (st : RunState),
      corpusValidated annot st → corpusValidated annot (processLoop annot s i l st))
    ∧ ∀ (sentences : List String) (startArg : Option Int) (gold : Option String)
        (annot : Nat → AnnotOutcome),
        corpusValidated annot (mainRun sentences startArg gold annot) := by
  constructor
  · intro annot s i l st h
    exact processLoop_validated annot s l i st h
  · intro sentences startArg gold annot
    simp only [mainRun]
    split
    · exact initRunState_validated annot
    · exact processLoop_validated annot _ _ _ _ (initRunState_validated annot)

/-- Witness for C1: the invariant, instantiated on a concrete one-sentence run. -/
theorem C1_witness :
    corpusValidated annotConst (processLoop annotConst 1 1 ["a"] initRunState) :=
  C1_corpus_validation.1 annotConst 1 1 ["a"] initRunState
    ⟨rfl, by intro c hc; cases hc⟩

/-- C2: when the run reaches sentence `k` (everything from the resolved start
up to `k` validated) and validation fails at `k`, the final state is exactly:
the commits for the indices before `k`, no append for `k`, and precisely the
three diagnostic files for `k` (raw token JSON, rendered record, validator
log) — in particular nothing at all for any index after `k`. -/
theorem C2_halt_on_validation_failure
    (sentences : List String) (startArg : Option Int) (gold : Option String)
    (annot : Nat → AnnotOutcome) (k : Nat) (ck tk vk : String) (cf tf vf : Nat → String)
    (hsk : (resolveStart startArg gold).toNat ≤ k)
    (hk : k ≤ sentences.length)
    (hprev : ∀ j, (resolveStart startArg gold).toNat ≤ j → j < k →
      annot j = .result true (cf j) (tf j) (vf j))
    (hfail : annot k = .result false ck tk vk) :
    mainRun sentences startArg gold annot =
      { corpusAppended := corpusOf ((List.range' (resolveStart startArg gold).toNat
            (k - (resolveStart startArg gold).toNat)).map
            (fun j => (j, sentAt sentences j, cf j))),
        commits := (List.range' (resolveStart startArg gold).toNat
            (k - (resolveStart startArg gold).toNat)).map
            (fun j => (j, sentAt sentences j, cf j)),
        files := [(jsonFileName k, tk), (conlluFileName k, ck), (valLogFileName k, vk)] } := by
  have hpos : 1 ≤ resolveStart startArg gold := resolveStart_pos startArg gold
  have hsN1 : 1 ≤ (resolveStart startArg gold).toNat := by omega
  have hcond : ¬ resolveStart startArg gold > (sentences.length : Int) := by
    have h1 : (resolveStart startArg gold).toNat ≤ sentences.length := le_trans hsk hk
    omega
  rw [mainRun_eq_processLoop hcond, processLoop_skip]
  have hmax : max 1 (resolveStart startArg gold).toNat = (resolveStart startArg gold).toNat := by
    omega
  rw [hmax]
  rw [processLoop_ok_run annot (resolveStart startArg gold).toNat cf tf vf (sentAt sentences)
        (k - (resolveStart startArg gold).toNat) (resolveStart startArg gold).toNat
        (sentences.drop ((resolveStart startArg gold).toNat - 1)) initRunState
        (le_refl _)
        (by rw [List.length_drop]; omega)
        (by
          intro p hp
          rw [List.getElem?_drop]
          have hlt : (resolveStart startArg gold).toNat - 1 + p < sentences.length := by omega
          rw [List.getElem?_eq_getElem hlt]
          rw [sentAt,
            show (resolveStart startArg gold).toNat + p - 1 =
              (resolveStart startArg gold).toNat - 1 + p from by omega,
            List.getD_eq_getElem sentences "" hlt])
        (by
          intro j h1 h2
          exact hprev j h1 (by omega))]
  rw [show (resolveStart startArg gold).toNat + (k - (resolveStart startArg gold).toNat) = k
      from by omega]
  have hdrop : (sentences.drop ((resolveStart startArg gold).toNat - 1)).drop
      (k - (resolveStart startArg gold).toNat) = sentences.drop (k - 1) := by
    rw [List.drop_drop]
    congr 1
    omega
  rw [hdrop]
  have hk1 : k - 1 < sentences.length := by omega
  rw [List.drop_eq_getElem_cons hk1]
  rw [processLoop_invalid_step (by omega) hfail]
  simp [initRunState, String.empty_append]

/-- Witness for C2: three sentences, validation fails at index 2 — one commit
for index 1, the three diagnostic files for index 2, nothing for index 3. -/
theorem C2_witness :
    mainRun ["s1", "s2", "s3"] none none annotInvalidAt2 =
      { corpusAppended := corpusOf ((List.range' (resolveStart none none).toNat
            (2 - (resolveStart none none).toNat)).map
            (fun j => (j, sentAt ["s1", "s2", "s3"] j, cfW j))),
        commits := (List.range' (resolveStart none none).toNat
            (2 - (resolveStart none none).toNat)).map
            (fun j => (j, sentAt ["s1", "s2", "s3"] j, cfW j)),
        files := [(jsonFileName 2, "TOK"), (conlluFileName 2, "BAD\n"),
                  (valLogFileName 2, "LOG")] } :=
  C2_halt_on_validation_failure ["s1", "s2", "s3"] none none annotInvalidAt2 2
    "BAD\n" "TOK" "LOG" cfW tfW vfW
    (by decide) (by decide)
    (by
      intro j h1 h2
      rw [show (resolveStart none none).toNat = 1 from by decide] at h1
      have hj : j = 1 := by omega
      subst hj
      decide)
    (by decide)

/-- C3: when the run reaches sentence `k` and annotation/conversion raises an
exception there, the final state is exactly: the commits for the indices
before `k`, no append for `k`, and the single exception diagnostic file for
`k` whose content carries the index, the sentence text and the error detail —
nothing at all for any index after `k`. -/
theorem C3_halt_on_exception
    (sentences : List String) (startArg : Option Int) (gold : Option String)
    (annot : Nat → AnnotOutcome) (k : Nat) (e : String) (cf tf vf : Nat → String)
    (hsk : (resolveStart startArg gold).toNat ≤ k)
    (hk : k ≤ sentences.length)
    (hprev : ∀ j, (resolveStart startArg gold).toNat ≤ j → j < k →
      annot j = .result true (cf j) (tf j) (vf j))
    (hexn : annot k = .exn e) :
    mainRun sentences startArg gold annot =
      { corpusAppended := corpusOf ((List.range' (resolveStart startArg gold).toNat
            (k - (resolveStart startArg gold).toNat)).map
            (fun j => (j, sentAt sentences j, cf j))),
        commits := (List.range' (resolveStart startArg gold).toNat
            (k - (resolveStart startArg gold).toNat)).map
            (fun j => (j, sentAt sentences j, cf j)),
        files := [(exnFileName k, exnFileContent k (sentAt sentences k) e)] } := by
  have hpos : 1 ≤ resolveStart startArg gold := resolveStart_pos startArg gold
  have hsN1 : 1 ≤ (resolveStart startArg gold).toNat := by omega
  have hcond : ¬ resolveStart startArg gold > (sentences.length : Int) := by
    have h1 : (resolveStart startArg gold).toNat ≤ sentences.length := le_trans hsk hk
    omega
  rw [mainRun_eq_processLoop hcond, processLoop_skip]
  have hmax : max 1 (resolveStart startArg gold).toNat = (resolveStart startArg gold).toNat := by
    omega
  rw [hmax]
  rw [processLoop_ok_run annot (resolveStart startArg gold).toNat cf tf vf (sentAt sentences)
        (k - (resolveStart startArg gold).toNat) (resolveStart startArg gold).toNat
        (sentences.drop ((resolveStart startArg gold).toNat - 1)) initRunState
        (le_refl _)
        (by rw [List.length_drop]; omega)
        (by
          intro p hp
          rw [List.getElem?_drop]
          have hlt : (resolveStart startArg gold).toNat - 1 + p < sentences.length := by omega
          rw [List.getElem?_eq_getElem hlt]
          rw [sentAt,
            show (resolveStart startArg gold).toNat + p - 1 =
              (resolveStart startArg gold).toNat - 1 + p from by omega,
            List.getD_eq_getElem sentences "" hlt])
        (by
          intro j h1 h2
          exact hprev j h1 (by omega))]
  rw [show (resolveStart startArg gold).toNat + (k - (resolveStart startArg gold).toNat) = k
      from by omega]
  have hdrop : (sentences.drop ((resolveStart startArg gold).toNat - 1)).drop
      (k - (resolveStart startArg gold).toNat) = sentences.drop (k - 1) := by
    rw [List.drop_drop]
    congr 1
    omega
  rw [hdrop]
  have hk1 : k - 1 < sentences.length := by omega
  rw [List.drop_eq_getElem_cons hk1]
  rw [processLoop_exn_step (by omega) hexn]
  rw [show sentAt sentences k = sentences[k - 1] from by
    rw [sentAt]; exact List.getD_eq_getElem sentences "" hk1]
  simp [initRunState, String.empty_append]

/-- Witness for C3: three sentences, annotation raises at index 2 — one commit
for index 1, the single exception diagnostic file for index 2, nothing for 3. -/
theorem C3_witness :
    mainRun ["s1", "s2", "s3"] none none annotExnAt2 =
      { corpusAppended := corpusOf ((List.range' (resolveStart none none).toNat
            (2 - (resolveStart none none).toNat)).map
            (fun j => (j, sentAt ["s1", "s2", "s3"] j, cfW j))),
        commits := (List.range' (resolveStart none none).toNat
            (2 - (resolveStart none none).toNat)).map
            (fun j => (j, sentAt ["s1", "s2", "s3"] j, cfW j)),
        files := [(exnFileName 2, exnFileContent 2 (sentAt ["s1", "s2", "s3"] 2) "boom")] } :=
  C3_halt_on_exception ["s1", "s2", "s3"] none none annotExnAt2 2 "boom" cfW tfW vfW
    (by decide) (by decide)
    (by
      intro j h1 h2
      rw [show (resolveStart none none).toNat = 1 from by decide] at h1
      have hj : j = 1 := by omega
      subst hj
      decide)
    (by decide)

/-- C6 (amended): in every run started *without* an explicit resume-index
override, each successful commit writes a header `auto-N` with `N` exactly one
greater than the highest `N` present in the corpus at the time of that commit;
with an override the header uses the sentence's input index instead, which
need not satisfy this. -/
theorem C6_commit_increment (sentences : List String) (gold : Option String)
    (annot : Nat → AnnotOutcome) :
    commitIdsFollow (get_last_processed_index gold)
      ((mainRun sentences none gold annot).commits.map Prod.fst) = true := by
  have hnn : 0 ≤ get_last_processed_index gold := get_last_processed_index_nonneg gold
  have hrs : resolveStart none gold = get_last_processed_index gold + 1 := by
    rw [resolveStart]
    simp only [Option.getD_none]
    rw [if_neg (by omega)]
  by_cases hcond : resolveStart none gold > (sentences.length : Int)
  · simp only [mainRun]
    rw [if_pos hcond]
    rfl
  · rw [mainRun_eq_processLoop hcond, processLoop_skip]
    have hs1 : 1 ≤ (resolveStart none gold).toNat := by
      have := resolveStart_pos none gold
      omega
    have hmax : max 1 (resolveStart none gold).toNat = (resolveStart none gold).toNat := by omega
    rw [hmax]
    obtain ⟨m, hm⟩ := processLoop_commits_consecutive annot (resolveStart none gold).toNat
      (sentences.drop ((resolveStart none gold).toNat - 1)) (resolveStart none gold).toNat
      initRunState (le_refl _)
    rw [hm]
    rw [show initRunState.commits.map Prod.fst ++
          List.range' (resolveStart none gold).toNat m =
        List.range' (resolveStart none gold).toNat m from by simp [initRunState]]
    exact commitIdsFollow_range' m (resolveStart none gold).toNat _
      (by rw [Int.toNat_of_nonneg (by omega), hrs])

/-- Counterexample to C6 as stated: with corpus highest header `auto-7` and an
explicit override `--start-from 1`, the run's first (and only) commit writes
header `auto-1`, not `auto-8`: the claimed discipline fails for override runs. -/
theorem C6_counterexample :
    get_last_processed_index (some goldSeven) = 7
    ∧ (mainRun ["s1"] (some 1) (some goldSeven) annotConst).commits.map Prod.fst = [1]
    ∧ commitIdsFollow (get_last_processed_index (some goldSeven))
        ((mainRun ["s1"] (some 1) (some goldSeven) annotConst).commits.map Prod.fst)
      = false := by
  refine ⟨by decide, by decide, by decide⟩
